import Mathlib

/-!
Verification of the log-decoder core of the `calendar` repository (`src/log.rs`).

The decoder consumes a parsed TOML document (modelled here as a tree of
strings and ordered tables) and produces a `Log`: a start date, a dense
highlight table and one `Day` per calendar day.  Each serde visitor of the
source is embedded as a pure Lean function; a Rust panic is modelled by the
`DecResult.abort` outcome, a serde error by `DecResult.err`.
-/

set_option linter.unusedVariables false
set_option maxRecDepth 100000

/-- Modelled from the spec: calendar dates (`time::Date` is an external crate).
Per spec §6, dates are ISO-8601 calendar dates; TOML keys can only produce
four-digit years, so the representable range is 0000-01-01 to 9999-12-31,
which is also the range of `time::Date` under default features. -/
structure Date where
  year : Nat
  month : Nat
  day : Nat
deriving DecidableEq, Repr

/-- Proleptic Gregorian leap-year rule. -/
def isLeap (y : Nat) : Bool :=
  y % 4 == 0 && (y % 100 != 0 || y % 400 == 0)

def daysInMonth (y : Nat) (m : Nat) : Nat :=
  match m with
  | 2 => if isLeap y then 29 else 28
  | 4 => 30
  | 6 => 30
  | 9 => 30
  | 11 => 30
  | _ => 31

def validDate (d : Date) : Bool :=
  decide (1 ≤ d.month) && decide (d.month ≤ 12) && decide (1 ≤ d.day) &&
    decide (d.day ≤ daysInMonth d.year d.month)

/-- Modelled from the spec: `time::Date::next_day`, which returns `None` only
at the maximum representable date 9999-12-31. -/
def nextDay (d : Date) : Option Date :=
  if d.day < daysInMonth d.year d.month then some ⟨d.year, d.month, d.day + 1⟩
  else if d.month < 12 then some ⟨d.year, d.month + 1, 1⟩
  else if d.year < 9999 then some ⟨d.year + 1, 1, 1⟩
  else none

/-- Days in the months strictly before month `m` of year `y`. -/
def daysBeforeMonth (y : Nat) (m : Nat) : Nat :=
  let l : Nat := if isLeap y then 1 else 0
  match m with
  | 1 => 0
  | 2 => 31
  | 3 => 59 + l
  | 4 => 90 + l
  | 5 => 120 + l
  | 6 => 151 + l
  | 7 => 181 + l
  | 8 => 212 + l
  | 9 => 243 + l
  | 10 => 273 + l
  | 11 => 304 + l
  | _ => 334 + l

/-- Day count of `d` with 0000-01-01 mapped to 1 (proleptic Gregorian). -/
def rataDie (d : Date) : Nat :=
  365 * d.year + ((d.year + 3) / 4 - (d.year + 99) / 100 + (d.year + 399) / 400)
    + daysBeforeMonth d.year d.month + d.day

/-- Modelled from the spec: `time::Date::weekday` rendered as the 3-letter
abbreviation used at `log.rs` lines 276-284.  Calibrated so that 2024-01-01
is a Monday (0000-01-01 is a Saturday in the proleptic Gregorian calendar). -/
def weekdayAbbrev (d : Date) : String :=
  match rataDie d % 7 with
  | 0 => "Fri"
  | 1 => "Sat"
  | 2 => "Sun"
  | 3 => "Mon"
  | 4 => "Tue"
  | 5 => "Wed"
  | _ => "Thu"

def digitVal (c : Char) : Option Nat :=
  if '0' ≤ c ∧ c ≤ '9' then some (c.toNat - 48) else none

/-- Modelled from the spec: deserializing a `time::Date` from a TOML string key
(ISO-8601 `YYYY-MM-DD`, validity of the calendar date enforced). -/
def parseDate (s : String) : Option Date :=
  match s.data with
  | [y1, y2, y3, y4, h1, m1, m2, h2, d1, d2] =>
    if h1 = '-' ∧ h2 = '-' then
      match digitVal y1, digitVal y2, digitVal y3, digitVal y4,
          digitVal m1, digitVal m2, digitVal d1, digitVal d2 with
      | some a, some b, some c, some d, some e, some f, some g, some h =>
        let dt : Date := ⟨1000 * a + 100 * b + 10 * c + d, 10 * e + f, 10 * g + h⟩
        if validDate dt then some dt else none
      | _, _, _, _, _, _, _, _ => none
    else none
  | _ => none

def pad2 (n : Nat) : String :=
  if n < 10 then "0" ++ toString n else toString n

def pad4 (n : Nat) : String :=
  if n < 10 then "000" ++ toString n
  else if n < 100 then "00" ++ toString n
  else if n < 1000 then "0" ++ toString n
  else toString n

/-- Modelled from the spec: the `Display` rendering of a `time::Date`
(`YYYY-MM-DD`), as interpolated into the exact-match error message. -/
def dateToString (d : Date) : String :=
  pad4 d.year ++ "-" ++ pad2 d.month ++ "-" ++ pad2 d.day

/-- A parsed TOML value, restricted to the forms the log schema uses:
strings and (ordered) tables.  Tables keep source order, which is what the
serde `MapAccess` of the `toml` crate exposes to the visitors. -/
inductive Toml where
  | str : String → Toml
  | table : List (String × Toml) → Toml

/-- Outcome of a decode step: `ok`, a serde error carrying its message, or
`abort`, which models a Rust panic. -/
inductive DecResult (α : Type) where
  | ok : α → DecResult α
  | err : String → DecResult α
  | abort : DecResult α
deriving DecidableEq, Repr

/- ## Hex colour decoding (`mod colour`, log.rs lines 136-205) -/

/-- Wrapping byte subtraction: `a - b` on `u8` for `a b < 256`. -/
def wsub (a b : Nat) : Nat := (a + 256 - b) % 256

/-- One SIMD lane of the rejection mask: `(b - b'0') >= 10 && (b - b'A') >= 6`
(the lane is neither a decimal digit nor an uppercase hex letter). -/
def laneBad (b : Nat) : Bool :=
  decide (10 ≤ wsub b 48) && decide (6 ≤ wsub b 65)

/-- One SIMD lane of `values`: `not_09.select(b - b'A' + 10, b - b'0')`. -/
def laneVal (b : Nat) : Nat :=
  if 10 ≤ wsub b 48 then (wsub b 65 + 10) % 256 else wsub b 48

/-- `higher | lower` for one output byte: `(h << 4) | l` on `u8`. -/
def pairByte (h l : Nat) : Nat :=
  Nat.lor (h <<< 4 % 256) l

/-- `colour::parse_6_hex`.  The source loads the 6 input bytes into an 8-lane
`u8` vector padded with two `b'0'` lanes, rejects if any lane is outside
`0-9`/`A-F`, then recombines lanes pairwise; lane pair (6,7) is the padding
and is dropped by the final `data[..3]` truncation. -/
def parse_6_hex (b0 b1 b2 b3 b4 b5 : Nat) : Option (Nat × Nat × Nat) :=
  if laneBad b0 || laneBad b1 || laneBad b2 || laneBad b3 || laneBad b4 || laneBad b5
      || laneBad 48 || laneBad 48 then
    none
  else
    some (pairByte (laneVal b0) (laneVal b1), pairByte (laneVal b2) (laneVal b3),
      pairByte (laneVal b4) (laneVal b5))

/-- An RGB colour, `colour::Colour(pub [u8; 3])`. -/
structure Colour where
  b0 : Nat
  b1 : Nat
  b2 : Nat
deriving DecidableEq, Repr

/-- UTF-8 encoding of one scalar value, modelling `str::as_bytes` per char. -/
def utf8Bytes (c : Char) : List Nat :=
  if c.toNat < 128 then [c.toNat]
  else if c.toNat < 2048 then [192 + c.toNat / 64, 128 + c.toNat % 64]
  else if c.toNat < 65536 then
    [224 + c.toNat / 4096, 128 + c.toNat / 64 % 64, 128 + c.toNat % 64]
  else
    [240 + c.toNat / 262144, 128 + c.toNat / 4096 % 64, 128 + c.toNat / 64 % 64,
      128 + c.toNat % 64]

/-- The UTF-8 byte sequence of a character list (`str::as_bytes`). -/
def strBytes : List Char → List Nat
  | [] => []
  | c :: cs => utf8Bytes c ++ strBytes cs

/-- The `<&[u8; 6]>::try_from(v.as_bytes()).ok().and_then(parse_6_hex)` step:
require exactly six bytes and run `parse_6_hex` on them; both a wrong length
and a non-hex byte surface as the same serde error. -/
def parseSixBytes : List Nat → DecResult Colour
  | [b0, b1, b2, b3, b4, b5] =>
    match parse_6_hex b0 b1 b2 b3 b4 b5 with
    | some (r, g, b) => .ok ⟨r, g, b⟩
    | none => .err "colour must contain 6 hex digits"
  | _ => .err "colour must contain 6 hex digits"

/-- `colour::DeVisitor::visit_str`: strip the `#` prefix (an error when the
first character is not `#`), then decode the remaining bytes. -/
def colourVisitStr (s : String) : DecResult Colour :=
  match s.data with
  | c :: cs =>
    if c = '#' then parseSixBytes (strBytes cs)
    else .err "colour must start with #"
  | [] => .err "colour must start with #"

/-- Reference hex decoder following the spec's words (§4.1): a naive
per-character decode mapping `0`-`9` to 0-9 and `A`-`F` to 10-15, rejecting
everything else, and pairing consecutive values as high and low nibbles. -/
def hexVal (b : Nat) : Option Nat :=
  if 48 ≤ b ∧ b ≤ 57 then some (b - 48)
  else if 65 ≤ b ∧ b ≤ 70 then some (b - 55)
  else none

/-- Reference decode of six bytes following the spec's words (§4.1). -/
def naive_parse_6_hex (b0 b1 b2 b3 b4 b5 : Nat) : Option (Nat × Nat × Nat) :=
  match hexVal b0, hexVal b1, hexVal b2, hexVal b3, hexVal b4, hexVal b5 with
  | some v0, some v1, some v2, some v3, some v4, some v5 =>
    some (16 * v0 + v1, 16 * v2 + v3, 16 * v4 + v5)
  | _, _, _, _, _, _ => none

/- ## Shapes and highlights (log.rs lines 89-134) -/

/-- `Shape`, a closed enumeration decoded with kebab-case names. -/
inductive Shape where
  | Rectangle : Shape
  | Circle : Shape
deriving DecidableEq, Repr

/-- Decoding `Shape` (serde derive with `rename_all = "kebab-case"`). -/
def decodeShape : Toml → DecResult Shape
  | .str "rectangle" => .ok Shape.Rectangle
  | .str "circle" => .ok Shape.Circle
  | .str s => .err ("unknown variant `" ++ s ++ "`, expected `rectangle` or `circle`")
  | _ => .err "invalid type: table, expected a shape string"

/-- Decoding `Colour` (`deserialize_str` with the colour visitor). -/
def decodeColour : Toml → DecResult Colour
  | .str s => colourVisitStr s
  | _ => .err "invalid type: table, expected a colour"

/-- `Highlight { shape, colour }`. -/
structure Highlight where
  shape : Shape
  colour : Colour
deriving DecidableEq, Repr

/-- Field loop of the serde-derived `Highlight` decoder
(`#[serde(deny_unknown_fields)]`): fields in any order, each at most once,
unknown fields rejected, both fields required. -/
def decodeHighlightFields : List (String × Toml) → Option Shape → Option Colour →
    DecResult Highlight
  | [], some sh, some co => .ok ⟨sh, co⟩
  | [], none, _ => .err "missing field `shape`"
  | [], some _, none => .err "missing field `colour`"
  | (k, v) :: rest, sh, co =>
    if k = "shape" then
      match sh with
      | some _ => .err "duplicate field `shape`"
      | none =>
        match decodeShape v with
        | .ok s => decodeHighlightFields rest (some s) co
        | .err e => .err e
        | .abort => .abort
    else if k = "colour" then
      match co with
      | some _ => .err "duplicate field `colour`"
      | none =>
        match decodeColour v with
        | .ok c => decodeHighlightFields rest sh (some c)
        | .err e => .err e
        | .abort => .abort
    else .err ("unknown field `" ++ k ++ "`, expected `shape` or `colour`")

/-- The serde-derived `Highlight` deserializer. -/
def decodeHighlight : Toml → DecResult Highlight
  | .table entries => decodeHighlightFields entries none none
  | .str _ => .err "invalid type: string, expected struct Highlight"

/-- The transient name-to-index lookup (`ahash::HashMap<String, usize>`),
modelled as an association list queried with `List.lookup`; keys are unique
because insertion is guarded by `contains_key`. -/
abbrev Lookup := List (String × Nat)

/-- `HighlightIndex { highlights, indices }`. -/
structure HighlightIndex where
  highlights : List Highlight
  indices : Lookup
deriving DecidableEq, Repr

/-- The `while let Some((key, value)) = map.next_entry()?` loop of
`HighlightsVisitor::visit_map` (log.rs lines 106-119).  `next_entry` decodes
the value before the duplicate check runs; on a fresh name the position
`highlights.len()` is recorded and the highlight appended. -/
def decodeHighlightsLoop (hs : List Highlight) (idx : Lookup) :
    List (String × Toml) → DecResult HighlightIndex
  | [] => .ok ⟨hs, idx⟩
  | (k, v) :: rest =>
    match decodeHighlight v with
    | .err e => .err e
    | .abort => .abort
    | .ok h =>
      if (List.lookup k idx).isSome then .err ("duplicate highlight " ++ k)
      else decodeHighlightsLoop (hs ++ [h]) (idx ++ [(k, hs.length)]) rest

/-- `HighlightIndex`'s deserializer (`deserialize_map(HighlightsVisitor)`). -/
def decodeHighlights : Toml → DecResult HighlightIndex
  | .table entries => decodeHighlightsLoop [] [] entries
  | _ => .err "invalid type: string, expected a table"

/-- All highlight records of an entry list decoded in source order, keeping
their names: the normal form a successful `decodeHighlightsLoop` run
produces, used to state its correspondence properties. -/
def decodeEntries : List (String × Toml) → Option (List (String × Highlight))
  | [] => some []
  | (k, v) :: rest =>
    match decodeHighlight v with
    | .ok h => (decodeEntries rest).map (fun ds => (k, h) :: ds)
    | _ => none

/- ## Days (mod day, log.rs lines 305-360) -/

/-- The sentinel stored in a `Day` for "no highlight" (`usize::MAX`). -/
def USIZE_MAX : Nat := 2 ^ 64 - 1

/-- `day::Day`: a single highlight index, `usize::MAX` if there is none. -/
structure Day where
  highlight : Nat
deriving DecidableEq, Repr

/-- `Day::highlight`: `None` for the sentinel, `Some(index)` otherwise. -/
def Day.highlightOpt (d : Day) : Option Nat :=
  if d.highlight = USIZE_MAX then none else some d.highlight

/-- `day::DeserializeSeed::visit_str` (log.rs lines 339-351). -/
def dayVisitStr (idx : Lookup) (s : String) : DecResult Day :=
  if s.isEmpty then .ok ⟨USIZE_MAX⟩
  else
    match List.lookup s idx with
    | some i => .ok ⟨i⟩
    | none => .err ("no known highlight `" ++ s ++ "`")

/- ## The data table (mod data, log.rs lines 208-303) -/

/-- Modelled from the spec: the `serde::MapAccess` driver of the `toml` crate
(an external dependency, not in src/) hands entries to a visitor one at a
time; per spec §4.6 "extra top-level keys are hard errors" and §4.5 the day
wrapper is a "one-entry map", entries a visitor leaves unconsumed are
rejected with this error. -/
def leftoverErr : String := "unexpected keys in table"

/-- Modelled from the spec: error produced by the serde driver when a visitor
requests a value although `next_key` already returned `None` (the day-wrapper
visitor discards the `Option` returned for its key, log.rs line 276). -/
def valueWithoutKeyErr : String := "next value called before next key"

/-- The error of `util::Exact` (log.rs lines 426-442): the decoded value is
compared with the expected one and the message states both. -/
def exactDateErr (found expected : Date) : String :=
  "invalid value: " ++ dateToString found ++ ", expected " ++ dateToString expected

/-- The error of `util::LiteralStr::visit_str` (log.rs lines 402-413),
rendered through serde's `invalid_value` with `Unexpected::Str`. -/
def literalStrErr (found expected : String) : String :=
  "invalid value: string \"" ++ found ++ "\", expected the string `" ++ expected ++ "`"

/-- Modelled from the spec: the error the `toml` crate reports when a key is
not a valid calendar date (spec §7, "invalid calendar date literal"). -/
def badDateErr (k : String) : String := "invalid date key: " ++ k

/-- `data::WrappedDay::visit_map` (log.rs lines 270-289): the first key must
equal the weekday abbreviation of the wrapped date, and the value is decoded
as a day string against the highlight lookup. -/
def decodeWrappedDay (idx : Lookup) (date : Date) : Toml → DecResult Day
  | .table entries =>
    match entries with
    | [] => .err valueWithoutKeyErr
    | (k, v) :: rest =>
      if k = weekdayAbbrev date then
        match v with
        | .str s =>
          match dayVisitStr idx s with
          | .ok day => if rest.isEmpty then .ok day else .err leftoverErr
          | .err e => .err e
          | .abort => .abort
        | _ => .err "invalid type: table, expected a string"
      else .err (literalStrErr k (weekdayAbbrev date))
  | _ => .err "invalid type: string, expected a map"

/-- `Data { start_date, days }`. -/
structure Data where
  start_date : Date
  days : List Day
deriving DecidableEq, Repr

/-- The `loop` of `data::DeserializeSeed::visit_map` (log.rs lines 240-250):
decode the pending value as a wrapped day, advance the date with
`next_day().unwrap()` (an `abort` when at 9999-12-31), then require the next
key, if any, to equal the advanced date exactly. -/
def dataLoop (idx : Lookup) (current : Date) (v : Toml) :
    List (String × Toml) → DecResult (List Day)
  | [] =>
    match decodeWrappedDay idx current v with
    | .err e => .err e
    | .abort => .abort
    | .ok day =>
      match nextDay current with
      | none => .abort
      | some _ => .ok [day]
  | (k2, v2) :: rest2 =>
    match decodeWrappedDay idx current v with
    | .err e => .err e
    | .abort => .abort
    | .ok day =>
      match nextDay current with
      | none => .abort
      | some next =>
        match parseDate k2 with
        | none => .err (badDateErr k2)
        | some found =>
          if found = next then
            match dataLoop idx next v2 rest2 with
            | .ok days => .ok (day :: days)
            | .err e => .err e
            | .abort => .abort
          else .err (exactDateErr found next)

/-- `data::DeserializeSeed::visit_map` (log.rs lines 234-252): the first key
is the required start date (an empty table is rejected), then the loop runs
over the remaining entries. -/
def decodeData (idx : Lookup) : List (String × Toml) → DecResult Data
  | [] => .err "invalid length 0, expected a non-empty table"
  | (k, v) :: rest =>
    match parseDate k with
    | none => .err (badDateErr k)
    | some start =>
      match dataLoop idx start v rest with
      | .ok days => .ok ⟨start, days⟩
      | .err e => .err e
      | .abort => .abort

/-- The data table's deserializer (`deserialize_map` of the data seed). -/
def decodeDataToml (idx : Lookup) : Toml → DecResult Data
  | .table entries => decodeData idx entries
  | _ => .err "invalid type: string, expected a data table"

/- ## The root decoder (log.rs lines 68-87) -/

/-- `Log { highlights, start_date, days }`. -/
structure Log where
  highlights : List Highlight
  start_date : Date
  days : List Day
deriving DecidableEq, Repr

/-- `DeVisitor::visit_map`: `de_map_access_require_entry` for `"highlights"`,
then for `"data"` with the highlight lookup as seed (log.rs lines 75-87,
util at lines 363-386), then the driver's leftover check (modelled from the
spec, see `leftoverErr`). -/
def decodeLog : List (String × Toml) → DecResult Log
  | [] => .err "missing field `highlights`"
  | (k1, v1) :: rest1 =>
    if k1 = "highlights" then
      match decodeHighlights v1 with
      | .err e => .err e
      | .abort => .abort
      | .ok hidx =>
        match rest1 with
        | [] => .err "missing field `data`"
        | (k2, v2) :: rest2 =>
          if k2 = "data" then
            match decodeDataToml hidx.indices v2 with
            | .err e => .err e
            | .abort => .abort
            | .ok data =>
              if rest2.isEmpty then .ok ⟨hidx.highlights, data.start_date, data.days⟩
              else .err leftoverErr
          else .err (literalStrErr k2 "data")
    else .err (literalStrErr k1 "highlights")

/-- `Days::next` applied to one stored day (log.rs lines 54-57): resolve the
sentinel to `None` and an index `i` to `Some(&self.highlights[i])`; the outer
`none` models the panic of an out-of-bounds index. -/
def resolveDay (log : Log) (d : Day) : Option (Option Highlight) :=
  match d.highlightOpt with
  | none => some none
  | some i => (log.highlights[i]?).map some

/-- Iterated `nextDay`, giving the date `i` days after `d` when defined. -/
def addDays (d : Date) : Nat → Option Date
  | 0 => some d
  | n + 1 =>
    match nextDay d with
    | none => none
    | some d2 => addDays d2 n

/- ## Helper lemmas -/

/-- Per-lane agreement of the SIMD character classification with the naive
hex-digit table, checked over all byte values. -/
theorem laneOpt_eq_hexVal :
    ∀ b : Fin 256, (if laneBad b.val then none else some (laneVal b.val)) = hexVal b.val := by
  decide

theorem lane_of_hexVal_some {b v : Nat} (hb : b < 256) (h : hexVal b = some v) :
    laneBad b = false ∧ laneVal b = v := by
  have he := laneOpt_eq_hexVal ⟨b, hb⟩
  simp only [Fin.isValue] at he
  rw [h] at he
  by_cases hl : laneBad b = true
  · rw [if_pos hl] at he
    exact absurd he (by simp)
  · rw [if_neg hl] at he
    exact ⟨by simpa using hl, by simpa using he⟩

theorem lane_of_hexVal_none {b : Nat} (hb : b < 256) (h : hexVal b = none) :
    laneBad b = true := by
  have he := laneOpt_eq_hexVal ⟨b, hb⟩
  rw [h] at he
  by_cases hl : laneBad b = true
  · exact hl
  · rw [if_neg hl] at he
    exact absurd he (by simp)

theorem hexVal_of_laneBad_false {b : Nat} (hb : b < 256) (h : laneBad b = false) :
    hexVal b = some (laneVal b) := by
  have he := laneOpt_eq_hexVal ⟨b, hb⟩
  rw [h] at he
  simpa using he.symm

theorem hexVal_lt_16 {b v : Nat} (h : hexVal b = some v) : v < 16 := by
  unfold hexVal at h
  split_ifs at h <;> (injection h with h; omega)

theorem hexVal_lt_128 {b v : Nat} (h : hexVal b = some v) : b < 128 := by
  unfold hexVal at h
  split_ifs at h with h1 h2 <;> omega

/-- Recombining one valid pair of nibbles is plain arithmetic. -/
theorem pairByte_eq : ∀ h l : Fin 16, pairByte h.val l.val = 16 * h.val + l.val := by
  decide

theorem pairByte_eq_of_lt {h l : Nat} (hh : h < 16) (hl : l < 16) :
    pairByte h l = 16 * h + l :=
  pairByte_eq ⟨h, hh⟩ ⟨l, hl⟩

/-- C5: on every 6-byte input the vectorized decoder `parse_6_hex` agrees with
the naive per-character reference decode, both on acceptance and on the three
bytes produced. -/
theorem c5_parse_6_hex_refines_naive (b0 b1 b2 b3 b4 b5 : Nat)
    (h0 : b0 < 256) (h1 : b1 < 256) (h2 : b2 < 256)
    (h3 : b3 < 256) (h4 : b4 < 256) (h5 : b5 < 256) :
    parse_6_hex b0 b1 b2 b3 b4 b5 = naive_parse_6_hex b0 b1 b2 b3 b4 b5 := by
  have h48 : laneBad 48 = false := by decide
  cases e0 : hexVal b0 with
  | none => simp [parse_6_hex, naive_parse_6_hex, lane_of_hexVal_none h0 e0, e0]
  | some v0 =>
    obtain ⟨hb0, hv0⟩ := lane_of_hexVal_some h0 e0
    cases e1 : hexVal b1 with
    | none => simp [parse_6_hex, naive_parse_6_hex, lane_of_hexVal_none h1 e1, e0, e1]
    | some v1 =>
      obtain ⟨hb1, hv1⟩ := lane_of_hexVal_some h1 e1
      cases e2 : hexVal b2 with
      | none => simp [parse_6_hex, naive_parse_6_hex, lane_of_hexVal_none h2 e2, e0, e1, e2]
      | some v2 =>
        obtain ⟨hb2, hv2⟩ := lane_of_hexVal_some h2 e2
        cases e3 : hexVal b3 with
        | none =>
          simp [parse_6_hex, naive_parse_6_hex, lane_of_hexVal_none h3 e3, e0, e1, e2, e3]
        | some v3 =>
          obtain ⟨hb3, hv3⟩ := lane_of_hexVal_some h3 e3
          cases e4 : hexVal b4 with
          | none =>
            simp [parse_6_hex, naive_parse_6_hex, lane_of_hexVal_none h4 e4,
              e0, e1, e2, e3, e4]
          | some v4 =>
            obtain ⟨hb4, hv4⟩ := lane_of_hexVal_some h4 e4
            cases e5 : hexVal b5 with
            | none =>
              simp [parse_6_hex, naive_parse_6_hex, lane_of_hexVal_none h5 e5,
                e0, e1, e2, e3, e4, e5]
            | some v5 =>
              obtain ⟨hb5, hv5⟩ := lane_of_hexVal_some h5 e5
              simp only [parse_6_hex, naive_parse_6_hex, hb0, hb1, hb2, hb3, hb4, hb5, h48,
                e0, e1, e2, e3, e4, e5, hv0, hv1, hv2, hv3, hv4, hv5, Bool.or_self,
                Bool.or_false, if_false, Bool.false_eq_true]
              rw [pairByte_eq_of_lt (hexVal_lt_16 e0) (hexVal_lt_16 e1),
                pairByte_eq_of_lt (hexVal_lt_16 e2) (hexVal_lt_16 e3),
                pairByte_eq_of_lt (hexVal_lt_16 e4) (hexVal_lt_16 e5)]

/-- Witness for C5 at the concrete input `"C92DA1"` (bytes 67 57 50 68 65 49). -/
theorem c5_witness :
    parse_6_hex 67 57 50 68 65 49 = naive_parse_6_hex 67 57 50 68 65 49 :=
  c5_parse_6_hex_refines_naive 67 57 50 68 65 49 (by decide) (by decide) (by decide)
    (by decide) (by decide) (by decide)

theorem char_toNat_lt (c : Char) : c.toNat < 1114112 := by
  have h := c.valid
  rcases h with h | ⟨h1, h2⟩
  · calc c.toNat = c.val.toNat := rfl
      _ < 55296 := h
      _ < 1114112 := by norm_num
  · exact h2

theorem utf8Bytes_ascii {c : Char} (h : c.toNat < 128) : utf8Bytes c = [c.toNat] := by
  simp [utf8Bytes, h]

theorem utf8Bytes_head_large {c : Char} (h : 128 ≤ c.toNat) :
    ∃ b bs, utf8Bytes c = b :: bs ∧ 128 ≤ b := by
  unfold utf8Bytes
  split_ifs with h1 h2 h3
  · exact absurd h1 (by omega)
  · exact ⟨_, _, rfl, by omega⟩
  · exact ⟨_, _, rfl, by omega⟩
  · exact ⟨_, _, rfl, by omega⟩

theorem utf8Bytes_lt_256 (c : Char) : ∀ b ∈ utf8Bytes c, b < 256 := by
  intro b hb
  have hv := char_toNat_lt c
  unfold utf8Bytes at hb
  split_ifs at hb with h1 h2 h3 <;> simp at hb <;> omega

theorem strBytes_lt_256 : ∀ cs : List Char, ∀ b ∈ strBytes cs, b < 256 := by
  intro cs
  induction cs with
  | nil => intro b hb; simp [strBytes] at hb
  | cons c cs ih =>
    intro b hb
    rw [strBytes] at hb
    rcases List.mem_append.mp hb with h | h
    · exact utf8Bytes_lt_256 c b h
    · exact ih b h

theorem strBytes_all_ascii : ∀ cs : List Char, (∀ b ∈ strBytes cs, b < 128) →
    strBytes cs = cs.map Char.toNat := by
  intro cs
  induction cs with
  | nil => intro _; rfl
  | cons c cs ih =>
    intro h
    by_cases hc : c.toNat < 128
    · rw [strBytes, utf8Bytes_ascii hc, List.map_cons, List.singleton_append]
      congr 1
      apply ih
      intro b hb
      apply h
      rw [strBytes]
      exact List.mem_append.mpr (Or.inr hb)
    · obtain ⟨b, bs, heq, hge⟩ := utf8Bytes_head_large (Nat.not_lt.mp hc)
      have hmem : b ∈ strBytes (c :: cs) := by
        rw [strBytes, heq]
        simp
      have := h b hmem
      omega

/-- C4: colour decoding succeeds on a string iff it matches `^#[0-9A-F]{6}$`
exactly, in which case output byte `k` is 16 times the hex value of character
`2k` plus the hex value of character `2k + 1`; `"#C92DA1"` decodes to bytes
`[0xC9, 0x2D, 0xA1]` while `"#4AG4B9"` and `"4AA4B9"` are errors. -/
theorem c4_colour_decode :
    (∀ (s : String) (col : Colour),
      colourVisitStr s = .ok col ↔
        ∃ c0 c1 c2 c3 c4 c5 v0 v1 v2 v3 v4 v5,
          s.data = ['#', c0, c1, c2, c3, c4, c5] ∧
          hexVal c0.toNat = some v0 ∧ hexVal c1.toNat = some v1 ∧
          hexVal c2.toNat = some v2 ∧ hexVal c3.toNat = some v3 ∧
          hexVal c4.toNat = some v4 ∧ hexVal c5.toNat = some v5 ∧
          col = ⟨16 * v0 + v1, 16 * v2 + v3, 16 * v4 + v5⟩) ∧
    colourVisitStr "#C92DA1" = .ok ⟨201, 45, 161⟩ ∧
    colourVisitStr "#4AG4B9" = .err "colour must contain 6 hex digits" ∧
    colourVisitStr "4AA4B9" = .err "colour must start with #" := by
  refine ⟨?_, by decide, by decide, by decide⟩
  intro s col
  constructor
  · intro h
    unfold colourVisitStr at h
    split at h
    case h_2 => simp at h
    case h_1 c cs hdata =>
      split at h
      case isFalse => simp at h
      case isTrue hc =>
        subst hc
        unfold parseSixBytes at h
        split at h
        case h_2 => simp at h
        case h_1 b0 b1 b2 b3 b4 b5 hbytes =>
          split at h
          case h_2 => simp at h
          case h_1 r g b hp =>
            have hmem : ∀ x ∈ [b0, b1, b2, b3, b4, b5], x < 256 := by
              intro x hx
              exact strBytes_lt_256 cs x (hbytes ▸ hx)
            obtain ⟨hcond, hval⟩ : (laneBad b0 = false ∧ laneBad b1 = false ∧
                laneBad b2 = false ∧ laneBad b3 = false ∧ laneBad b4 = false ∧
                laneBad b5 = false) ∧
                (pairByte (laneVal b0) (laneVal b1), pairByte (laneVal b2) (laneVal b3),
                  pairByte (laneVal b4) (laneVal b5)) = (r, g, b) := by
              unfold parse_6_hex at hp
              split at hp
              · exact absurd hp (by simp)
              next hcond =>
                simp only [Bool.or_eq_true, not_or, Bool.not_eq_true] at hcond
                obtain ⟨⟨⟨⟨⟨⟨⟨hc0, hc1⟩, hc2⟩, hc3⟩, hc4⟩, hc5⟩, -⟩, -⟩ := hcond
                refine ⟨⟨hc0, hc1, hc2, hc3, hc4, hc5⟩, ?_⟩
                injection hp
            obtain ⟨hc0, hc1, hc2, hc3, hc4, hc5⟩ := hcond
            have e0 := hexVal_of_laneBad_false (hmem b0 (by simp)) hc0
            have e1 := hexVal_of_laneBad_false (hmem b1 (by simp)) hc1
            have e2 := hexVal_of_laneBad_false (hmem b2 (by simp)) hc2
            have e3 := hexVal_of_laneBad_false (hmem b3 (by simp)) hc3
            have e4 := hexVal_of_laneBad_false (hmem b4 (by simp)) hc4
            have e5 := hexVal_of_laneBad_false (hmem b5 (by simp)) hc5
            have hascii : strBytes cs = cs.map Char.toNat := by
              apply strBytes_all_ascii
              intro x hx
              rw [hbytes] at hx
              simp at hx
              rcases hx with hx | hx | hx | hx | hx | hx <;> subst hx
              · exact hexVal_lt_128 e0
              · exact hexVal_lt_128 e1
              · exact hexVal_lt_128 e2
              · exact hexVal_lt_128 e3
              · exact hexVal_lt_128 e4
              · exact hexVal_lt_128 e5
            rw [hascii] at hbytes
            match cs, hbytes with
            | [d0, d1, d2, d3, d4, d5], hbytes =>
              simp only [List.map_cons, List.map_nil, List.cons.injEq, and_true] at hbytes
              obtain ⟨k0, k1, k2, k3, k4, k5⟩ := hbytes
              subst k0 k1 k2 k3 k4 k5
              refine ⟨d0, d1, d2, d3, d4, d5, laneVal d0.toNat, laneVal d1.toNat,
                laneVal d2.toNat, laneVal d3.toNat, laneVal d4.toNat, laneVal d5.toNat,
                hdata, e0, e1, e2, e3, e4, e5, ?_⟩
              injection h with h
              rw [← h]
              simp only [Prod.mk.injEq] at hval
              rw [← hval.1, ← hval.2.1, ← hval.2.2]
              rw [pairByte_eq_of_lt (hexVal_lt_16 e0) (hexVal_lt_16 e1),
                pairByte_eq_of_lt (hexVal_lt_16 e2) (hexVal_lt_16 e3),
                pairByte_eq_of_lt (hexVal_lt_16 e4) (hexVal_lt_16 e5)]
  · rintro ⟨c0, c1, c2, c3, c4, c5, v0, v1, v2, v3, v4, v5, hdata,
      e0, e1, e2, e3, e4, e5, hcol⟩
    have a0 := utf8Bytes_ascii (hexVal_lt_128 e0)
    have a1 := utf8Bytes_ascii (hexVal_lt_128 e1)
    have a2 := utf8Bytes_ascii (hexVal_lt_128 e2)
    have a3 := utf8Bytes_ascii (hexVal_lt_128 e3)
    have a4 := utf8Bytes_ascii (hexVal_lt_128 e4)
    have a5 := utf8Bytes_ascii (hexVal_lt_128 e5)
    obtain ⟨l0, w0⟩ := lane_of_hexVal_some (by have := hexVal_lt_128 e0; omega) e0
    obtain ⟨l1, w1⟩ := lane_of_hexVal_some (by have := hexVal_lt_128 e1; omega) e1
    obtain ⟨l2, w2⟩ := lane_of_hexVal_some (by have := hexVal_lt_128 e2; omega) e2
    obtain ⟨l3, w3⟩ := lane_of_hexVal_some (by have := hexVal_lt_128 e3; omega) e3
    obtain ⟨l4, w4⟩ := lane_of_hexVal_some (by have := hexVal_lt_128 e4; omega) e4
    obtain ⟨l5, w5⟩ := lane_of_hexVal_some (by have := hexVal_lt_128 e5; omega) e5
    have h48 : laneBad 48 = false := by decide
    have hb : strBytes [c0, c1, c2, c3, c4, c5] =
        [c0.toNat, c1.toNat, c2.toNat, c3.toNat, c4.toNat, c5.toNat] := by
      simp [strBytes, a0, a1, a2, a3, a4, a5]
    unfold colourVisitStr
    rw [hdata]
    show parseSixBytes (strBytes [c0, c1, c2, c3, c4, c5]) = DecResult.ok col
    rw [hb]
    unfold parseSixBytes
    dsimp only
    unfold parse_6_hex
    rw [if_neg (by simp [l0, l1, l2, l3, l4, l5, h48])]
    dsimp only
    rw [w0, w1, w2, w3, w4, w5,
      pairByte_eq_of_lt (hexVal_lt_16 e0) (hexVal_lt_16 e1),
      pairByte_eq_of_lt (hexVal_lt_16 e2) (hexVal_lt_16 e3),
      pairByte_eq_of_lt (hexVal_lt_16 e4) (hexVal_lt_16 e5), hcol]

/-- Witness for C4: instantiating the equivalence at `"#C92DA1"`, producing
the decoded bytes from the per-character hex values. -/
theorem c4_witness :
    colourVisitStr "#C92DA1" = .ok ⟨201, 45, 161⟩ :=
  (c4_colour_decode.1 "#C92DA1" ⟨201, 45, 161⟩).mpr
    ⟨'C', '9', '2', 'D', 'A', '1', 12, 9, 2, 13, 10, 1, by decide, by decide, by decide,
      by decide, by decide, by decide, by decide, by decide⟩

/-- C6: a day string decodes to the "no highlight" sentinel when empty, to the
index stored in the lookup when it is a known highlight name, and to an error
naming the unknown highlight otherwise. -/
theorem c6_day_decode (idx : Lookup) (s : String) :
    (s = "" → dayVisitStr idx s = .ok ⟨USIZE_MAX⟩) ∧
    (s ≠ "" →
      (∃ i, List.lookup s idx = some i ∧ dayVisitStr idx s = .ok ⟨i⟩) ∨
        (List.lookup s idx = none ∧
          dayVisitStr idx s = .err ("no known highlight `" ++ s ++ "`"))) := by
  constructor
  · intro h
    subst h
    rfl
  · intro h
    have hne : s.isEmpty = false := by
      rw [Bool.eq_false_iff]
      intro hx
      exact h (String.isEmpty_iff s |>.mp hx)
    cases hl : List.lookup s idx with
    | some i => exact Or.inl ⟨i, rfl, by simp [dayVisitStr, hne, hl]⟩
    | none => exact Or.inr ⟨rfl, by simp [dayVisitStr, hne, hl]⟩

/-- Witness for C6 at a one-entry lookup: the empty string decodes to the
sentinel, and the known name `"x"` decodes to its index. -/
theorem c6_witness :
    dayVisitStr [("x", 0)] "" = .ok ⟨USIZE_MAX⟩ ∧
      dayVisitStr [("x", 0)] "x" = .ok ⟨0⟩ := by
  refine ⟨(c6_day_decode [("x", 0)] "").1 rfl, ?_⟩
  rcases (c6_day_decode [("x", 0)] "x").2 (by decide) with ⟨i, hi, hd⟩ | ⟨hn, -⟩
  · have hi0 : i = 0 := by
      have hb : ("x" == "x") = true := by simp
      simp only [List.lookup, hb] at hi
      injection hi with hi
      exact hi.symm
    rw [hi0] at hd
    exact hd
  · have hb : ("x" == "x") = true := by simp
    simp [List.lookup, hb] at hn

/-- C9 (code bug): on the document `[highlights]` followed by `[data]` with the
single entry `9999-12-31 = { Fri = "" }`, every decoding step up to the date
advance succeeds, and the `current_date.next_day().unwrap()` of
`data::DeserializeSeed::visit_map` then panics (modelled by `abort`): the
decode is not total. -/
theorem c9_next_day_unwrap_panics :
    decodeLog [("highlights", Toml.table []),
      ("data", Toml.table [("9999-12-31", Toml.table [("Fri", Toml.str "")])])] =
      .abort := by
  decide

/-- C8: the root decode succeeds only on documents whose top-level entries are
exactly `"highlights"` then `"data"`, in that order, with nothing else. -/
theorem c8_root_requires_exact_keys (entries : List (String × Toml)) (log : Log) :
    decodeLog entries = .ok log →
    ∃ hv dv, entries = [("highlights", hv), ("data", dv)] := by
  intro h
  match entries with
  | [] => exact absurd h (by simp [decodeLog])
  | (k1, v1) :: rest1 =>
    simp only [decodeLog] at h
    by_cases hk1 : k1 = "highlights"
    · subst hk1
      rw [if_pos rfl] at h
      cases hh : decodeHighlights v1 with
      | err e => simp [hh] at h
      | abort => simp [hh] at h
      | ok hidx =>
        rw [hh] at h
        dsimp only at h
        cases rest1 with
        | nil => simp at h
        | cons p rest2 =>
          obtain ⟨k2, v2⟩ := p
          dsimp only at h
          by_cases hk2 : k2 = "data"
          · subst hk2
            rw [if_pos rfl] at h
            cases hd : decodeDataToml hidx.indices v2 with
            | err e => simp [hd] at h
            | abort => simp [hd] at h
            | ok data =>
              rw [hd] at h
              dsimp only at h
              by_cases hr : rest2.isEmpty
              · rw [List.isEmpty_iff.mp hr]
                exact ⟨v1, v2, rfl⟩
              · rw [if_neg (by simpa using hr)] at h
                exact absurd h (by simp)
          · rw [if_neg hk2] at h
            exact absurd h (by simp)
    · rw [if_neg hk1] at h
      exact absurd h (by simp)

/-- Witness for C8: a concrete well-formed document decodes successfully and
therefore has the required two-key shape. -/
theorem c8_witness :
    ([("highlights", Toml.table []),
      ("data", Toml.table [("2024-01-01", Toml.table [("Mon", Toml.str "")])])] :
        List (String × Toml)).length = 2 := by
  obtain ⟨hv, dv, he⟩ := c8_root_requires_exact_keys
    [("highlights", Toml.table []),
      ("data", Toml.table [("2024-01-01", Toml.table [("Mon", Toml.str "")])])]
    ⟨[], ⟨2024, 1, 1⟩, [⟨USIZE_MAX⟩]⟩ (by decide)
  rw [he]
  rfl

/-- Shape of a successful wrapped-day decode: the value must be a one-entry
table keyed by the weekday abbreviation of the date, holding a day string
that itself decodes. -/
theorem wrappedDay_ok_iff (idx : Lookup) (d : Date) (v : Toml) (day : Day) :
    decodeWrappedDay idx d v = .ok day ↔
      ∃ s, v = Toml.table [(weekdayAbbrev d, Toml.str s)] ∧
        dayVisitStr idx s = .ok day := by
  constructor
  · intro h
    match v with
    | .str _ => simp [decodeWrappedDay] at h
    | .table [] => simp [decodeWrappedDay] at h
    | .table ((k, w) :: rest) =>
      simp only [decodeWrappedDay] at h
      by_cases hk : k = weekdayAbbrev d
      · subst hk
        rw [if_pos rfl] at h
        match w with
        | .table _ => simp at h
        | .str s =>
          dsimp only at h
          cases hd : dayVisitStr idx s with
          | err e => simp [hd] at h
          | abort => simp [hd] at h
          | ok day2 =>
            rw [hd] at h
            dsimp only at h
            cases rest with
            | cons q rest2 => simp at h
            | nil =>
              simp only [List.isEmpty_nil, if_true] at h
              injection h with h
              exact ⟨s, rfl, by rw [hd, h]⟩
      · rw [if_neg hk] at h
        exact absurd h (by simp)
  · rintro ⟨s, hv, hd⟩
    subst hv
    simp [decodeWrappedDay, hd]

/-- C3: a day value decodes successfully iff it is a one-entry map whose sole
key is the 3-letter weekday abbreviation of its date and whose value is a
decodable day string; keying Monday 2024-01-01 with `"Tue"` fails with the
literal-string mismatch error. -/
theorem c3_weekday_label (idx : Lookup) (d : Date) (v : Toml) (day : Day) :
    (decodeWrappedDay idx d v = .ok day ↔
      ∃ s, v = Toml.table [(weekdayAbbrev d, Toml.str s)] ∧
        dayVisitStr idx s = .ok day) ∧
    decodeWrappedDay [] ⟨2024, 1, 1⟩ (Toml.table [("Tue", Toml.str "")]) =
      .err (literalStrErr "Tue" "Mon") :=
  ⟨wrappedDay_ok_iff idx d v day, by decide⟩

/-- Witness for C3: the correctly keyed wrapper `{ Mon = "" }` on Monday
2024-01-01 decodes to the sentinel day via the equivalence. -/
theorem c3_witness :
    decodeWrappedDay [] ⟨2024, 1, 1⟩ (Toml.table [("Mon", Toml.str "")]) =
      .ok ⟨USIZE_MAX⟩ :=
  ((c3_weekday_label [] ⟨2024, 1, 1⟩ (Toml.table [("Mon", Toml.str "")]) ⟨USIZE_MAX⟩).1).mpr
    ⟨"", by rw [show weekdayAbbrev ⟨2024, 1, 1⟩ = "Mon" by decide], by decide⟩

/-- C2: once a day has been decoded, the next date key (if any) must equal the
previous date advanced by one calendar day; a mismatching (gapped, duplicate
or out-of-order) date key fails with the error stating the expected and found
dates, as in the concrete 2024-01-01 / 2024-01-03 scenario. -/
theorem c2_date_continuity :
    (∀ (idx : Lookup) (current : Date) (v : Toml) (k2 : String) (v2 : Toml)
        (rest2 : List (String × Toml)) (day : Day) (next found : Date),
      decodeWrappedDay idx current v = .ok day →
      nextDay current = some next →
      parseDate k2 = some found →
      found ≠ next →
      dataLoop idx current v ((k2, v2) :: rest2) = .err (exactDateErr found next)) ∧
    decodeData [] [("2024-01-01", Toml.table [("Mon", Toml.str "")]),
        ("2024-01-03", Toml.table [("Wed", Toml.str "")])] =
      .err "invalid value: 2024-01-03, expected 2024-01-02" := by
  constructor
  · intro idx current v k2 v2 rest2 day next found hw hn hp hne
    simp only [dataLoop, hw, hn, hp]
    rw [if_neg hne]
  · decide

/-- Witness for C2: the gap from 2024-01-01 to 2024-01-03 makes the loop fail
with expected 2024-01-02, found 2024-01-03. -/
theorem c2_witness :
    dataLoop [] ⟨2024, 1, 1⟩ (Toml.table [("Mon", Toml.str "")])
        [("2024-01-03", Toml.table [("Wed", Toml.str "")])] =
      .err (exactDateErr ⟨2024, 1, 3⟩ ⟨2024, 1, 2⟩) :=
  c2_date_continuity.1 [] ⟨2024, 1, 1⟩ (Toml.table [("Mon", Toml.str "")]) "2024-01-03"
    (Toml.table [("Wed", Toml.str "")]) [] ⟨USIZE_MAX⟩ ⟨2024, 1, 2⟩ ⟨2024, 1, 3⟩
    (by decide) (by decide) (by decide) (by decide)

/-- A successful run of the data loop decodes one day per remaining entry and
forces the `i`-th remaining key to be the current date advanced `i + 1`
days. -/
theorem dataLoop_spec (idx : Lookup) :
    ∀ (rest : List (String × Toml)) (current : Date) (v : Toml) (ds : List Day),
      dataLoop idx current v rest = .ok ds →
      ds.length = rest.length + 1 ∧
      ∀ i (h : i < rest.length),
        ∃ di, addDays current (i + 1) = some di ∧
          parseDate (rest.get ⟨i, h⟩).1 = some di := by
  intro rest
  induction rest with
  | nil =>
    intro current v ds h
    cases hw : decodeWrappedDay idx current v with
    | err e => simp [dataLoop, hw] at h
    | abort => simp [dataLoop, hw] at h
    | ok day =>
      cases hn : nextDay current with
      | none => simp [dataLoop, hw, hn] at h
      | some next =>
        simp only [dataLoop, hw, hn] at h
        injection h with h
        subst h
        refine ⟨by simp, ?_⟩
        intro i hi
        exact absurd hi (by simp)
  | cons p rest2 ih =>
    obtain ⟨k2, v2⟩ := p
    intro current v ds h
    cases hw : decodeWrappedDay idx current v with
    | err e => simp [dataLoop, hw] at h
    | abort => simp [dataLoop, hw] at h
    | ok day =>
      cases hn : nextDay current with
      | none => simp [dataLoop, hw, hn] at h
      | some next =>
        cases hp : parseDate k2 with
        | none => simp [dataLoop, hw, hn, hp] at h
        | some found =>
          by_cases hf : found = next
          · subst hf
            cases hrec : dataLoop idx found v2 rest2 with
            | err e => simp [dataLoop, hw, hn, hp, hrec] at h
            | abort => simp [dataLoop, hw, hn, hp, hrec] at h
            | ok ds2 =>
              simp only [dataLoop, hw, hn, hp, if_pos rfl, hrec] at h
              obtain ⟨hlen, hdates⟩ := ih found v2 ds2 hrec
              injection h with h
              subst h
              constructor
              · simp [hlen]
              · intro i hi
                cases i with
                | zero =>
                  refine ⟨found, ?_, ?_⟩
                  · simp [addDays, hn]
                  · simpa using hp
                | succ j =>
                  obtain ⟨di, ha, hpj⟩ := hdates j (by simpa using hi)
                  refine ⟨di, ?_, ?_⟩
                  · rw [show addDays current (j + 1 + 1) =
                        addDays found (j + 1) by simp [addDays, hn]]
                    exact ha
                  · simpa using hpj
          · simp [dataLoop, hw, hn, hp, hf] at h

/-- C1: a successfully decoded data table has exactly one day per source
entry, the `i`-th entry being keyed by `start_date + i`; an empty data table
fails with the non-empty-table error. -/
theorem c1_days_match_dates :
    (∀ (idx : Lookup) (entries : List (String × Toml)) (d : Data),
      decodeData idx entries = .ok d →
      d.days.length = entries.length ∧
      ∀ i (h : i < entries.length),
        ∃ di, addDays d.start_date i = some di ∧
          parseDate (entries.get ⟨i, h⟩).1 = some di) ∧
    (∀ idx : Lookup,
      decodeData idx [] = .err "invalid length 0, expected a non-empty table") := by
  constructor
  · intro idx entries d h
    match entries with
    | [] => simp [decodeData] at h
    | (k, v) :: rest =>
      cases hp : parseDate k with
      | none => simp [decodeData, hp] at h
      | some start =>
        cases hl : dataLoop idx start v rest with
        | err e => simp [decodeData, hp, hl] at h
        | abort => simp [decodeData, hp, hl] at h
        | ok days =>
          simp only [decodeData, hp, hl] at h
          injection h with h
          subst h
          obtain ⟨hlen, hdates⟩ := dataLoop_spec idx rest start v days hl
          constructor
          · simpa using hlen
          · intro i hi
            cases i with
            | zero => exact ⟨start, by simp [addDays], by simpa using hp⟩
            | succ j =>
              obtain ⟨di, ha, hpj⟩ := hdates j (by simpa using hi)
              exact ⟨di, ha, by simpa using hpj⟩
  · intro idx
    rfl

/-- Witness for C1: the one-entry table starting 2024-01-01 decodes to one day
whose entry is keyed by its start date. -/
theorem c1_witness :
    ((⟨⟨2024, 1, 1⟩, [⟨USIZE_MAX⟩]⟩ : Data).days.length =
      [("2024-01-01", Toml.table [("Mon", Toml.str "")])].length) ∧
    decodeData [] ([] : List (String × Toml)) =
      .err "invalid length 0, expected a non-empty table" :=
  ⟨(c1_days_match_dates.1 [] [("2024-01-01", Toml.table [("Mon", Toml.str "")])]
      ⟨⟨2024, 1, 1⟩, [⟨USIZE_MAX⟩]⟩ (by decide)).1,
    c1_days_match_dates.2 []⟩

theorem lookup_mem {k : String} {i : Nat} : ∀ {l : Lookup},
    List.lookup k l = some i → (k, i) ∈ l := by
  intro l
  induction l with
  | nil => intro h; simp [List.lookup] at h
  | cons p l ih =>
    obtain ⟨a, b⟩ := p
    intro h
    by_cases hk : k = a
    · subst hk
      have hb : (k == k) = true := by simp
      simp only [List.lookup, hb] at h
      injection h with h
      subst h
      exact List.mem_cons_self _ _
    · have hb : (k == a) = false := by simp [hk]
      simp only [List.lookup, hb] at h
      exact List.mem_cons_of_mem _ (ih h)

theorem lookup_append (k : String) (l1 l2 : Lookup) :
    List.lookup k (l1 ++ l2) =
      match List.lookup k l1 with
      | some v => some v
      | none => List.lookup k l2 := by
  induction l1 with
  | nil => simp [List.lookup]
  | cons p l1 ih =>
    obtain ⟨a, b⟩ := p
    by_cases hk : k = a
    · subst hk
      have hb : (k == k) = true := by simp
      rw [List.cons_append]
      simp only [List.lookup, hb]
    · have hb : (k == a) = false := by simp [hk]
      rw [List.cons_append]
      simp only [List.lookup, hb]
      exact ih

/-- A pair found in a list zipped with consecutive indices pins down the
position of its key. -/
theorem mem_zip_range' (as : List String) :
    ∀ (s : Nat) (k : String) (i : Nat),
      (k, i) ∈ List.zip as (List.range' s as.length) →
      s ≤ i ∧ as[i - s]? = some k := by
  induction as with
  | nil => simp
  | cons a as ih =>
    intro s k i h
    rw [List.length_cons, List.range'_succ, List.zip_cons_cons] at h
    rcases List.mem_cons.mp h with h | h
    · obtain ⟨hk, hi⟩ := Prod.mk.injEq .. ▸ h
      subst hk
      subst hi
      simp
    · obtain ⟨hs, hget⟩ := ih (s + 1) k i h
      refine ⟨by omega, ?_⟩
      rw [show i - s = (i - (s + 1)) + 1 by omega]
      simpa using hget

/-- Normal form of a successful highlights loop: all records decode in order,
the output sequence extends the accumulator with the decoded highlights, and
the lookup extends the accumulator with each name mapped to consecutive
positions starting at the accumulator's length. -/
theorem hlLoop_normal (entries : List (String × Toml)) :
    ∀ (hs : List Highlight) (idx : Lookup) (r : HighlightIndex),
      decodeHighlightsLoop hs idx entries = .ok r →
      ∃ ds, decodeEntries entries = some ds ∧
        r.highlights = hs ++ ds.map Prod.snd ∧
        r.indices = idx ++ List.zip (ds.map Prod.fst) (List.range' hs.length ds.length) := by
  induction entries with
  | nil =>
    intro hs idx r h
    simp only [decodeHighlightsLoop] at h
    injection h with h
    subst h
    exact ⟨[], rfl, by simp, by simp⟩
  | cons p rest ih =>
    obtain ⟨k, v⟩ := p
    intro hs idx r h
    cases hv : decodeHighlight v with
    | err e => simp [decodeHighlightsLoop, hv] at h
    | abort => simp [decodeHighlightsLoop, hv] at h
    | ok hl =>
      simp only [decodeHighlightsLoop, hv] at h
      by_cases hc : (List.lookup k idx).isSome
      · rw [if_pos hc] at h
        exact absurd h (by simp)
      · rw [if_neg hc] at h
        obtain ⟨ds, hds, hh, hi⟩ := ih (hs ++ [hl]) (idx ++ [(k, hs.length)]) r h
        refine ⟨(k, hl) :: ds, ?_, ?_, ?_⟩
        · simp [decodeEntries, hv, hds]
        · rw [hh, List.append_assoc]
          simp
        · rw [hi, List.map_cons, List.length_cons, List.range'_succ, List.zip_cons_cons,
            List.append_assoc]
          simp

/-- A successful highlights loop implies the processed names were pairwise
distinct and none of them was already present in the lookup accumulator. -/
theorem hlLoop_nodup (entries : List (String × Toml)) :
    ∀ (hs : List Highlight) (idx : Lookup) (r : HighlightIndex),
      decodeHighlightsLoop hs idx entries = .ok r →
      (entries.map Prod.fst).Nodup ∧
        ∀ k ∈ entries.map Prod.fst, List.lookup k idx = none := by
  induction entries with
  | nil => intro hs idx r h; exact ⟨List.nodup_nil, by simp⟩
  | cons p rest ih =>
    obtain ⟨k, v⟩ := p
    intro hs idx r h
    cases hv : decodeHighlight v with
    | err e => simp [decodeHighlightsLoop, hv] at h
    | abort => simp [decodeHighlightsLoop, hv] at h
    | ok hl =>
      simp only [decodeHighlightsLoop, hv] at h
      by_cases hc : (List.lookup k idx).isSome
      · rw [if_pos hc] at h
        exact absurd h (by simp)
      · rw [if_neg hc] at h
        obtain ⟨hnd, hfresh⟩ := ih _ _ r h
        have hkfresh : ∀ k2 ∈ rest.map Prod.fst,
            List.lookup k2 idx = none ∧ k2 ≠ k := by
          intro k2 hk2
          have hap := hfresh k2 hk2
          rw [lookup_append] at hap
          cases hl2 : List.lookup k2 idx with
          | some w => rw [hl2] at hap; simp at hap
          | none =>
            rw [hl2] at hap
            refine ⟨rfl, ?_⟩
            intro hkk
            subst hkk
            have hb : (k2 == k2) = true := by simp
            simp [List.lookup, hb] at hap
        have hknone : List.lookup k idx = none := by
          cases ho : List.lookup k idx with
          | none => rfl
          | some w => rw [ho] at hc; simp at hc
        constructor
        · rw [List.map_cons]
          refine List.nodup_cons.mpr ⟨?_, hnd⟩
          intro hmem
          exact (hkfresh k hmem).2 rfl
        · intro k2 hk2
          rw [List.map_cons] at hk2
          rcases List.mem_cons.mp hk2 with hk2 | hk2
          · subst hk2; exact hknone
          · exact (hkfresh k2 hk2).1

/-- When every record decodes but some name repeats (or is already in the
accumulator), the highlights loop fails with a duplicate-name error naming a
repeated highlight. -/
theorem hlLoop_dup_err (entries : List (String × Toml)) :
    ∀ (hs : List Highlight) (idx : Lookup),
      (∀ p ∈ entries, ∃ h, decodeHighlight p.2 = .ok h) →
      (¬ (entries.map Prod.fst).Nodup ∨
        ∃ k ∈ entries.map Prod.fst, (List.lookup k idx).isSome) →
      ∃ k, decodeHighlightsLoop hs idx entries = .err ("duplicate highlight " ++ k) ∧
        k ∈ entries.map Prod.fst ∧
        ((List.lookup k idx).isSome ∨ 2 ≤ (entries.map Prod.fst).count k) := by
  induction entries with
  | nil =>
    intro hs idx hdec hdup
    rcases hdup with hdup | ⟨k, hk, -⟩
    · exact absurd List.nodup_nil hdup
    · simp at hk
  | cons p rest ih =>
    obtain ⟨k, v⟩ := p
    intro hs idx hdec hdup
    obtain ⟨hl, hv⟩ := hdec (k, v) (List.mem_cons_self _ _)
    by_cases hc : (List.lookup k idx).isSome
    · refine ⟨k, ?_, by simp, Or.inl hc⟩
      simp only [decodeHighlightsLoop, hv]
      rw [if_pos hc]
    · have hdup2 : ¬ (rest.map Prod.fst).Nodup ∨
          ∃ k2 ∈ rest.map Prod.fst,
            (List.lookup k2 (idx ++ [(k, hs.length)])).isSome := by
        rcases hdup with hdup | ⟨k2, hk2, hsome⟩
        · by_cases hkmem : k ∈ rest.map Prod.fst
          · refine Or.inr ⟨k, hkmem, ?_⟩
            rw [lookup_append]
            cases hi : List.lookup k idx with
            | some w => simp
            | none =>
              have hb : (k == k) = true := by simp
              simp [List.lookup, hb]
          · refine Or.inl ?_
            intro hnd
            exact hdup (by rw [List.map_cons]; exact List.nodup_cons.mpr ⟨hkmem, hnd⟩)
        · rw [List.map_cons] at hk2
          rcases List.mem_cons.mp hk2 with hk2 | hk2
          · subst hk2
            exact absurd hsome hc
          · refine Or.inr ⟨k2, hk2, ?_⟩
            rw [lookup_append]
            cases hi : List.lookup k2 idx with
            | some w => simp
            | none => rw [hi] at hsome; simp at hsome
      obtain ⟨k2, herr, hmem, hcase⟩ := ih (hs ++ [hl]) (idx ++ [(k, hs.length)])
        (fun p hp => hdec p (List.mem_cons_of_mem _ hp)) hdup2
      refine ⟨k2, ?_, by rw [List.map_cons]; exact List.mem_cons_of_mem _ hmem, ?_⟩
      · simp only [decodeHighlightsLoop, hv]
        rw [if_neg hc]
        exact herr
      · rcases hcase with hsome | hcnt
        · rw [lookup_append] at hsome
          cases hi : List.lookup k2 idx with
          | some w => exact Or.inl rfl
          | none =>
            rw [hi] at hsome
            by_cases hkk : k2 = k
            · subst hkk
              refine Or.inr ?_
              rw [List.map_cons, List.count_cons_self]
              have hpos : 0 < (rest.map Prod.fst).count k2 :=
                List.count_pos_iff.mpr hmem
              omega
            · have hb : (k2 == k) = false := by simp [hkk]
              simp [List.lookup, hb] at hsome
        · refine Or.inr ?_
          rw [List.map_cons, List.count_cons]
          omega

/-- The decoded entry list is positionally aligned with the source entries:
same length, same names, and each decoded highlight comes from the record at
the same position. -/
theorem decodeEntries_spec (entries : List (String × Toml)) :
    ∀ ds, decodeEntries entries = some ds →
      ds.length = entries.length ∧
      ∀ i, i < entries.length →
        ∃ p d, entries[i]? = some p ∧ ds[i]? = some d ∧
          d.1 = p.1 ∧ decodeHighlight p.2 = .ok d.2 := by
  induction entries with
  | nil =>
    intro ds h
    injection h with h
    subst h
    exact ⟨rfl, fun i hi => absurd hi (by simp)⟩
  | cons p rest ih =>
    obtain ⟨k, v⟩ := p
    intro ds h
    cases hv : decodeHighlight v with
    | err e => simp [decodeEntries, hv] at h
    | abort => simp [decodeEntries, hv] at h
    | ok hl =>
      simp only [decodeEntries, hv] at h
      cases hrest : decodeEntries rest with
      | none => rw [hrest] at h; simp at h
      | some ds2 =>
        rw [hrest] at h
        injection h with h
        subst h
        obtain ⟨hlen, hspec⟩ := ih ds2 hrest
        refine ⟨by simp [hlen], ?_⟩
        intro i hi
        cases i with
        | zero => exact ⟨(k, v), (k, hl), by simp, by simp, rfl, hv⟩
        | succ j =>
          obtain ⟨q, d, h1, h2, h3, h4⟩ := hspec j (by simpa using hi)
          exact ⟨q, d, by simpa using h1, by simpa using h2, h3, h4⟩

/-- C7 counterexample: two `highlights` entries share the name `"a"`, but the
second record is malformed, so the decode fails with the record's type error
rather than a duplicate-name error — `next_entry` decodes the value before
the duplicate check runs. -/
theorem c7_counterexample :
    decodeHighlights (Toml.table
        [("a", Toml.table [("shape", Toml.str "circle"), ("colour", Toml.str "#FF0000")]),
          ("a", Toml.str "x")]) =
      .err "invalid type: string, expected struct Highlight" ∧
    ("invalid type: string, expected struct Highlight" : String) ≠
      "duplicate highlight a" := by
  exact ⟨by decide, by decide⟩

/-- C7 (amended): duplicate highlight names always make the decode fail, and
fail with a duplicate-name error identifying a repeated name whenever every
entry's record itself decodes (in particular regardless of whether the
duplicate entries' decoded contents differ); in every successful decode the
name-to-index mapping is injective and each name maps to the position of its
highlight in the output sequence. -/
theorem c7_duplicate_highlights :
    (∀ (entries : List (String × Toml)) (r : HighlightIndex),
      ¬ (entries.map Prod.fst).Nodup →
      decodeHighlights (Toml.table entries) ≠ .ok r) ∧
    (∀ entries : List (String × Toml),
      (∀ p ∈ entries, ∃ h, decodeHighlight p.2 = .ok h) →
      ¬ (entries.map Prod.fst).Nodup →
      ∃ k, decodeHighlights (Toml.table entries) = .err ("duplicate highlight " ++ k) ∧
        2 ≤ (entries.map Prod.fst).count k) ∧
    (∀ (entries : List (String × Toml)) (r : HighlightIndex),
      decodeHighlights (Toml.table entries) = .ok r →
      (∀ k1 k2 i, List.lookup k1 r.indices = some i →
        List.lookup k2 r.indices = some i → k1 = k2) ∧
      (∀ k i, List.lookup k r.indices = some i →
        ∃ h p, r.highlights[i]? = some h ∧ entries[i]? = some p ∧ p.1 = k ∧
          decodeHighlight p.2 = .ok h)) := by
  have hpos : ∀ (entries : List (String × Toml)) (r : HighlightIndex),
      decodeHighlights (Toml.table entries) = .ok r →
      ∀ k i, List.lookup k r.indices = some i →
        i < r.highlights.length ∧
          ∃ h p, r.highlights[i]? = some h ∧ entries[i]? = some p ∧ p.1 = k ∧
            decodeHighlight p.2 = .ok h := by
    intro entries r h k i hk
    obtain ⟨ds, hds, hh, hi⟩ := hlLoop_normal entries [] [] r h
    rw [hi, List.nil_append] at hk
    have hmem := lookup_mem hk
    rw [show ds.length = (ds.map Prod.fst).length by simp] at hmem
    obtain ⟨-, hget⟩ := mem_zip_range' (ds.map Prod.fst) 0 k i hmem
    rw [Nat.sub_zero] at hget
    have hilt : i < ds.length := by
      have := (List.getElem?_eq_some.mp hget).1
      simpa using this
    obtain ⟨hlen, hspec⟩ := decodeEntries_spec entries ds hds
    obtain ⟨p, d, hp, hd, hname, hdec⟩ := hspec i (by omega)
    have hdk : d.1 = k := by
      have : (ds.map Prod.fst)[i]? = ds[i]?.map Prod.fst := by
        simp [List.getElem?_map]
      rw [this, hd] at hget
      simpa using hget
    refine ⟨by rw [hh, List.nil_append]; simpa using hilt, d.2, p, ?_, hp, ?_, hdec⟩
    · rw [hh, List.nil_append, List.getElem?_map, hd]
      rfl
    · rw [← hdk, hname]
  refine ⟨?_, ?_, ?_⟩
  · intro entries r hdup h
    exact absurd (hlLoop_nodup entries [] [] r h).1 hdup
  · intro entries hdec hdup
    obtain ⟨k, herr, -, hcase⟩ :=
      hlLoop_dup_err entries [] [] hdec (Or.inl hdup)
    refine ⟨k, herr, ?_⟩
    rcases hcase with hsome | hcnt
    · simp [List.lookup] at hsome
    · exact hcnt
  · intro entries r h
    constructor
    · intro k1 k2 i h1 h2
      obtain ⟨-, h1, p1, -, hp1, hn1, -⟩ := hpos entries r h k1 i h1
      obtain ⟨-, h2, p2, -, hp2, hn2, -⟩ := hpos entries r h k2 i h2
      rw [hp1] at hp2
      injection hp2 with hp2
      rw [← hn1, ← hn2, hp2]
    · intro k i hk
      exact (hpos entries r h k i hk).2

/-- Witness for C7: exact duplicate entries (identical contents) fail with the
duplicate-name error for `"a"`, and the decode never returns a success. -/
theorem c7_witness :
    decodeHighlights (Toml.table
        [("a", Toml.table [("shape", Toml.str "circle"), ("colour", Toml.str "#FF0000")]),
          ("a", Toml.table [("shape", Toml.str "circle"), ("colour", Toml.str "#FF0000")])]) =
      .err ("duplicate highlight " ++ "a") := by
  obtain ⟨k, herr, hcnt⟩ := c7_duplicate_highlights.2.1
    [("a", Toml.table [("shape", Toml.str "circle"), ("colour", Toml.str "#FF0000")]),
      ("a", Toml.table [("shape", Toml.str "circle"), ("colour", Toml.str "#FF0000")])]
    (by intro p hp
        rcases List.mem_cons.mp hp with hp | hp
        · exact ⟨⟨Shape.Circle, ⟨255, 0, 0⟩⟩, by rw [hp]; decide⟩
        · rcases List.mem_cons.mp hp with hp | hp
          · exact ⟨⟨Shape.Circle, ⟨255, 0, 0⟩⟩, by rw [hp]; decide⟩
          · simp at hp)
    (by decide)
  have hka : k = "a" := by
    have := hcnt
    by_cases hk : k = "a"
    · exact hk
    · rw [show (List.map Prod.fst
          [("a", Toml.table [("shape", Toml.str "circle"), ("colour", Toml.str "#FF0000")]),
            ("a", Toml.table [("shape", Toml.str "circle"),
              ("colour", Toml.str "#FF0000")])]) = ["a", "a"] from rfl] at this
      simp [List.count_cons, hk] at this
  rw [hka] at herr
  exact herr

/-- Every index stored by the highlight-table decoder is a valid position in
the decoded highlight sequence. -/
theorem decodeHighlights_bounds (v : Toml) (r : HighlightIndex) :
    decodeHighlights v = .ok r →
    ∀ k i, List.lookup k r.indices = some i → i < r.highlights.length := by
  intro h k i hk
  match v with
  | .str _ => simp [decodeHighlights] at h
  | .table entries =>
    obtain ⟨ds, hds, hh, hi⟩ := hlLoop_normal entries [] [] r h
    rw [hi, List.nil_append] at hk
    have hmem := lookup_mem hk
    rw [show ds.length = (ds.map Prod.fst).length by simp] at hmem
    obtain ⟨-, hget⟩ := mem_zip_range' (ds.map Prod.fst) 0 k i hmem
    have hilt := (List.getElem?_eq_some.mp hget).1
    rw [hh, List.nil_append]
    simpa using hilt

/-- A decoded day stores either the sentinel or an index found in the
lookup. -/
theorem dayVisit_index (idx : Lookup) (s : String) (d : Day) :
    dayVisitStr idx s = .ok d →
    d.highlight = USIZE_MAX ∨ ∃ k, List.lookup k idx = some d.highlight := by
  intro h
  unfold dayVisitStr at h
  by_cases he : s.isEmpty
  · rw [if_pos he] at h
    injection h with h
    subst h
    exact Or.inl rfl
  · rw [if_neg he] at h
    cases hl : List.lookup s idx with
    | some i =>
      rw [hl] at h
      injection h with h
      subst h
      exact Or.inr ⟨s, hl⟩
    | none =>
      rw [hl] at h
      exact absurd h (by simp)

/-- Every day produced by the data loop stores either the sentinel or an
index found in the lookup. -/
theorem dataLoop_days_index (idx : Lookup) :
    ∀ (rest : List (String × Toml)) (current : Date) (v : Toml) (ds : List Day),
      dataLoop idx current v rest = .ok ds →
      ∀ d ∈ ds, d.highlight = USIZE_MAX ∨
        ∃ k, List.lookup k idx = some d.highlight := by
  intro rest
  induction rest with
  | nil =>
    intro current v ds h d hd
    cases hw : decodeWrappedDay idx current v with
    | err e => simp [dataLoop, hw] at h
    | abort => simp [dataLoop, hw] at h
    | ok day =>
      cases hn : nextDay current with
      | none => simp [dataLoop, hw, hn] at h
      | some next =>
        simp only [dataLoop, hw, hn] at h
        injection h with h
        subst h
        obtain ⟨s, -, hds⟩ := (wrappedDay_ok_iff idx current v day).mp hw
        rcases List.mem_singleton.mp hd with rfl
        exact dayVisit_index idx s d hds
  | cons p rest2 ih =>
    obtain ⟨k2, v2⟩ := p
    intro current v ds h d hd
    cases hw : decodeWrappedDay idx current v with
    | err e => simp [dataLoop, hw] at h
    | abort => simp [dataLoop, hw] at h
    | ok day =>
      cases hn : nextDay current with
      | none => simp [dataLoop, hw, hn] at h
      | some next =>
        cases hp : parseDate k2 with
        | none => simp [dataLoop, hw, hn, hp] at h
        | some found =>
          by_cases hf : found = next
          · subst hf
            cases hrec : dataLoop idx found v2 rest2 with
            | err e => simp [dataLoop, hw, hn, hp, hrec] at h
            | abort => simp [dataLoop, hw, hn, hp, hrec] at h
            | ok ds2 =>
              simp only [dataLoop, hw, hn, hp, if_pos rfl, hrec] at h
              injection h with h
              subst h
              rcases List.mem_cons.mp hd with rfl | hd
              · obtain ⟨s, -, hds⟩ := (wrappedDay_ok_iff idx current v d).mp hw
                exact dayVisit_index idx s d hds
              · exact ih found v2 ds2 hrec d hd
          · simp [dataLoop, hw, hn, hp, hf] at h

/-- Dissection of a successful root decode into its two stages. -/
theorem decodeLog_ok_parts (entries : List (String × Toml)) (log : Log) :
    decodeLog entries = .ok log →
    ∃ hv dv hidx data, entries = [("highlights", hv), ("data", dv)] ∧
      decodeHighlights hv = .ok hidx ∧
      decodeDataToml hidx.indices dv = .ok data ∧
      log = ⟨hidx.highlights, data.start_date, data.days⟩ := by
  intro h
  match entries with
  | [] => exact absurd h (by simp [decodeLog])
  | (k1, v1) :: rest1 =>
    simp only [decodeLog] at h
    by_cases hk1 : k1 = "highlights"
    · subst hk1
      rw [if_pos rfl] at h
      cases hh : decodeHighlights v1 with
      | err e => simp [hh] at h
      | abort => simp [hh] at h
      | ok hidx =>
        rw [hh] at h
        dsimp only at h
        cases rest1 with
        | nil => simp at h
        | cons p rest2 =>
          obtain ⟨k2, v2⟩ := p
          dsimp only at h
          by_cases hk2 : k2 = "data"
          · subst hk2
            rw [if_pos rfl] at h
            cases hd : decodeDataToml hidx.indices v2 with
            | err e => simp [hd] at h
            | abort => simp [hd] at h
            | ok data =>
              rw [hd] at h
              dsimp only at h
              by_cases hr : rest2.isEmpty
              · rw [if_pos (by simpa using hr)] at h
                injection h with h
                refine ⟨v1, v2, hidx, data, ?_, hh, hd, h.symm⟩
                rw [List.isEmpty_iff.mp hr]
              · rw [if_neg (by simpa using hr)] at h
                exact absurd h (by simp)
          · rw [if_neg hk2] at h
            exact absurd h (by simp)
    · rw [if_neg hk1] at h
      exact absurd h (by simp)

/-- Day indices of a successful data-table decode all come from the lookup or
are the sentinel. -/
theorem decodeData_days_index (idx : Lookup) (entries : List (String × Toml)) (dd : Data) :
    decodeData idx entries = .ok dd →
    ∀ d ∈ dd.days, d.highlight = USIZE_MAX ∨
      ∃ k, List.lookup k idx = some d.highlight := by
  intro h d hd
  match entries with
  | [] => simp [decodeData] at h
  | (k, v) :: rest =>
    cases hp : parseDate k with
    | none => simp [decodeData, hp] at h
    | some start =>
      cases hl : dataLoop idx start v rest with
      | err e => simp [decodeData, hp, hl] at h
      | abort => simp [decodeData, hp, hl] at h
      | ok days =>
        simp only [decodeData, hp, hl] at h
        injection h with h
        subst h
        exact dataLoop_days_index idx rest start v days hl d (by simpa using hd)

/-- C10: in every decoded `Log` each day stores the sentinel `usize::MAX` or
an index strictly below the number of highlights, so resolving the days never
indexes out of bounds: the iterator yields one item per stored day, `None`
for the sentinel and the highlight at the stored index otherwise. -/
theorem c10_sentinel_or_in_bounds (entries : List (String × Toml)) (log : Log) :
    decodeLog entries = .ok log →
    (∀ d ∈ log.days, d.highlight = USIZE_MAX ∨ d.highlight < log.highlights.length) ∧
    (log.days.map (resolveDay log)).length = log.days.length ∧
    (∀ d ∈ log.days,
      (d.highlight = USIZE_MAX → resolveDay log d = some none) ∧
      (d.highlight ≠ USIZE_MAX →
        ∃ h, log.highlights[d.highlight]? = some h ∧
          resolveDay log d = some (some h))) := by
  intro h
  obtain ⟨hv, dv, hidx, data, hshape, hhl, hdata, hlog⟩ := decodeLog_ok_parts entries log h
  subst hlog
  have hdays : ∀ d ∈ data.days, d.highlight = USIZE_MAX ∨
      ∃ k, List.lookup k hidx.indices = some d.highlight := by
    match dv, hdata with
    | .str _, hdata => simp [decodeDataToml] at hdata
    | .table dentries, hdata =>
      exact decodeData_days_index hidx.indices dentries data
        (by simpa [decodeDataToml] using hdata)
  have hbound := decodeHighlights_bounds hv hidx hhl
  have key : ∀ d ∈ data.days,
      d.highlight = USIZE_MAX ∨ d.highlight < hidx.highlights.length := by
    intro d hd
    rcases hdays d hd with hs | ⟨k, hk⟩
    · exact Or.inl hs
    · exact Or.inr (hbound k d.highlight hk)
  refine ⟨fun d hd => key d (by simpa using hd), by simp, ?_⟩
  intro d hd
  have hd2 : d ∈ data.days := by simpa using hd
  constructor
  · intro hs
    simp [resolveDay, Day.highlightOpt, hs]
  · intro hs
    rcases key d hd2 with h1 | h1
    · exact absurd h1 hs
    · obtain ⟨x, hx⟩ : ∃ x, hidx.highlights[d.highlight]? = some x := by
        rw [List.getElem?_eq_getElem h1]
        exact ⟨_, rfl⟩
      refine ⟨x, by simpa using hx, ?_⟩
      simp [resolveDay, Day.highlightOpt, hs, hx]

/-- Witness for C10 on the concrete document with one highlight `"sick"` and
one day referencing it: the stored index 0 is the sentinel or in bounds. -/
theorem c10_witness :
    (⟨0⟩ : Day).highlight = USIZE_MAX ∨
      (⟨0⟩ : Day).highlight <
        (Log.mk [⟨Shape.Circle, ⟨255, 0, 0⟩⟩] ⟨2024, 1, 1⟩ [⟨0⟩]).highlights.length :=
  (c10_sentinel_or_in_bounds
    [("highlights", Toml.table [("sick", Toml.table
        [("shape", Toml.str "circle"), ("colour", Toml.str "#FF0000")])]),
      ("data", Toml.table [("2024-01-01", Toml.table [("Mon", Toml.str "sick")])])]
    (Log.mk [⟨Shape.Circle, ⟨255, 0, 0⟩⟩] ⟨2024, 1, 1⟩ [⟨0⟩])
    (by decide)).1 ⟨0⟩ (by decide)
